import Mathlib

/-!
Verification of the DSP feature-extraction core of the VoiceGuardVoicemail
repository (`src/utils/signalProcessing.ts` and the `AudioProcessor` class of
the cepstral pipeline).

Shallow embedding conventions:
* JavaScript numbers are modelled as `JV := Option ℝ`: `some x` is an ordinary
  (finite) number, `none` is NaN.  Every arithmetic operation is strict in
  `none`, matching IEEE/JS NaN propagation; `Math.cos`/`Math.sin` of a finite
  argument are finite, so twiddle factors are `some` values.
* Reading a typed array out of bounds yields `undefined` in JS; every such read
  in this code is immediately consumed by an arithmetic operation, which turns
  `undefined` into NaN, so out-of-bounds reads are modelled as `none`.
* `Float32Array` contents are modelled as exact reals (the float32 rounding of
  stores is abstracted away; none of the verified properties depend on it).
* The recursive `FFT` is modelled with explicit fuel: the outer `Option` is
  `none` when the fuel is exhausted, which models non-termination of the
  recursion; a thrown JS `Error` is `JsOut.raise`, a normal return is
  `JsOut.ret`.
* The `AudioProcessor` pipeline works on `tf` tensors; a rank-1 tensor is
  modelled as `List ℝ`, a rank-2 tensor as `List (List ℝ)` (uniform row
  widths).  The two library calls it makes (`tf.signal.hammingWindow`,
  `tf.spectral.rfft`) are modelled from their documented semantics; only their
  output shapes matter for the theorems below.
-/

/-- A JavaScript number: `some x` is a finite value, `none` is NaN. -/
def JV : Type := Option ℝ

/-- JS addition, strict in NaN. -/
def jadd : JV → JV → JV
  | some a, some b => some (a + b)
  | _, _ => none

/-- JS subtraction, strict in NaN. -/
def jsub : JV → JV → JV
  | some a, some b => some (a - b)
  | _, _ => none

/-- JS multiplication, strict in NaN. -/
def jmul : JV → JV → JV
  | some a, some b => some (a * b)
  | _, _ => none

/-- JS division, strict in NaN.  (Division by zero is never reached by the
source on the paths verified here: every division is either by a positive
array length or behind a `> 0` guard.) -/
noncomputable def jdiv : JV → JV → JV
  | some a, some b => some (a / b)
  | _, _ => none

/-- `Math.max`, strict in NaN (`Math.max(NaN, x) = NaN`). -/
def jmax : JV → JV → JV
  | some a, some b => some (max a b)
  | _, _ => none

/-- `Math.log`, strict in NaN (arguments reaching it in this code are floored
to `1e-10` first, hence positive when finite). -/
noncomputable def jlog : JV → JV
  | some a => some (Real.log a)
  | none => none

/-- `Math.exp`, strict in NaN. -/
noncomputable def jexp : JV → JV
  | some a => some (Real.exp a)
  | none => none

/-- The conditional `t > 0 ? v : 0`; the comparison is false for NaN, as in
JS, so a NaN scrutinee yields `0`. -/
noncomputable def jguard : JV → JV → JV
  | none, _ => some 0
  | some t, v => if 0 < t then v else some 0

/-- Read index `i` of a typed array; out of bounds gives NaN (see header). -/
def fget (xs : List JV) (i : ℕ) : JV := (xs.get? i).getD none

/-- Outcome of a JS call: a thrown `Error` or a normal return. -/
inductive JsOut (α : Type) : Type
  | raise : JsOut α
  | ret : α → JsOut α
deriving DecidableEq

/-- The twiddle-factor real part `Math.cos(-2π·k/n)` (always finite). -/
noncomputable def twiddleRe (k n : ℕ) : ℝ := Real.cos (-2 * Real.pi * k / n)

/-- The twiddle-factor imaginary part `Math.sin(-2π·k/n)` (always finite). -/
noncomputable def twiddleIm (k n : ℕ) : ℝ := Real.sin (-2 * Real.pi * k / n)

/-- `tRe = oddRe * re - oddIm * im` from the combine loop of `FFT`. -/
noncomputable def combRe (n : ℕ) (odF : List JV) (k : ℕ) : JV :=
  jsub (jmul (fget odF (2 * k)) (some (twiddleRe k n)))
       (jmul (fget odF (2 * k + 1)) (some (twiddleIm k n)))

/-- `tIm = oddRe * im + oddIm * re` from the combine loop of `FFT`. -/
noncomputable def combIm (n : ℕ) (odF : List JV) (k : ℕ) : JV :=
  jadd (jmul (fget odF (2 * k)) (some (twiddleIm k n)))
       (jmul (fget odF (2 * k + 1)) (some (twiddleRe k n)))

/-- The combine loop of `FFT`: for `k < n/2` it writes
`evenFFT[k] ± twiddle·oddFFT[k]` into slots `2k, 2k+1` (first half) and
`2(k+n/2), 2(k+n/2)+1` (second half) of the `2n`-float result. -/
noncomputable def fftCombine (n : ℕ) (evF odF : List JV) : List JV :=
  (((List.range (n / 2)).map fun k =>
      [jadd (fget evF (2 * k)) (combRe n odF k),
       jadd (fget evF (2 * k + 1)) (combIm n odF k)]).flatten)
  ++ (((List.range (n / 2)).map fun k =>
      [jsub (fget evF (2 * k)) (combRe n odF k),
       jsub (fget evF (2 * k + 1)) (combIm n odF k)]).flatten)

/-- Recursive radix-2 `FFT` from `signalProcessing.ts`, with fuel.
The guard `(n & (n-1)) !== 0` throws; the base case `n === 1` returns a copy
of the (length-1, real-only) input; otherwise the signal is split into
even/odd subsequences, each is transformed recursively, and the results are
combined.  (Note `0 - 1 = 0` in ℕ and `0 & -1 = 0` on JS int32 agree: the
guard passes for `n = 0`.) -/
noncomputable def FFT : ℕ → List JV → Option (JsOut (List JV))
  | 0, _ => none
  | fuel + 1, signal =>
    let n := signal.length
    if n &&& (n - 1) ≠ 0 then some JsOut.raise
    else if n = 1 then some (JsOut.ret signal)
    else
      let ev := (List.range (n / 2)).map fun i => fget signal (2 * i)
      let od := (List.range (n / 2)).map fun i => fget signal (2 * i + 1)
      match FFT fuel ev with
      | none => none
      | some JsOut.raise => some JsOut.raise
      | some (JsOut.ret evF) =>
        match FFT fuel od with
        | none => none
        | some JsOut.raise => some JsOut.raise
        | some (JsOut.ret odF) => some (JsOut.ret (fftCombine n evF odF))

/-- The bins written by `powerSpectrum` after its `FFT` call.  The buffer
`new Float32Array(n/2 + 1)` truncates a fractional length (JS `ToIndex`), so
`n / 2` in ℕ matches.  `power[0]` is the DC slot, the loop fills
`1 ≤ i < n/2`, and for even `n` the final statement overwrites slot `n/2`
with `fft[1]²` (the "Nyquist" slot); for odd `n` that store targets the
fractional index `n/2` and is an ignored invalid typed-array write. -/
noncomputable def powerBins (n : ℕ) (fft : List JV) : List JV :=
  (List.range (n / 2 + 1)).map fun i =>
    if n % 2 = 0 ∧ i = n / 2 then jmul (fget fft 1) (fget fft 1)
    else if i = 0 then jadd (jmul (fget fft 0) (fget fft 0)) (jmul (fget fft 1) (fget fft 1))
    else jadd (jmul (fget fft (2 * i)) (fget fft (2 * i)))
              (jmul (fget fft (2 * i + 1)) (fget fft (2 * i + 1)))

/-- `powerSpectrum` from `signalProcessing.ts`: run `FFT`, then square and
sum the components per bin across `[0, n/2]`. -/
noncomputable def powerSpectrum (fuel : ℕ) (signal : List JV) : Option (JsOut (List JV)) :=
  match FFT fuel signal with
  | none => none
  | some JsOut.raise => some JsOut.raise
  | some (JsOut.ret fft) => some (JsOut.ret (powerBins signal.length fft))

/-- `spectralCentroid` from `signalProcessing.ts`: power-weighted mean of
`frequency i = i * sampleRate / (2 * power.length)`, guarded by
`totalPower > 0 ? weightedSum / totalPower : 0`. -/
noncomputable def spectralCentroid (fuel : ℕ) (signal : List JV) (sampleRate : ℝ) :
    Option (JsOut JV) :=
  match powerSpectrum fuel signal with
  | none => none
  | some JsOut.raise => some JsOut.raise
  | some (JsOut.ret power) =>
    let ws := power.enum.foldl
      (fun acc p => jadd acc (jmul (some ((p.1 : ℝ) * sampleRate / (2 * power.length))) p.2))
      (some 0)
    let tp := power.foldl jadd (some 0)
    some (JsOut.ret (jguard tp (jdiv ws tp)))

/-- `spectralFlatness` from `signalProcessing.ts`: floor each bin at `1e-10`
(in place), form `exp(mean of logs)` and the arithmetic mean, and return
`arithmeticMean > 0 ? geometricMean / arithmeticMean : 0`. -/
noncomputable def spectralFlatness (fuel : ℕ) (signal : List JV) : Option (JsOut JV) :=
  match powerSpectrum fuel signal with
  | none => none
  | some JsOut.raise => some JsOut.raise
  | some (JsOut.ret power) =>
    let floored := power.map fun p => jmax p (some 1e-10)
    let geo := jexp (jdiv (floored.foldl (fun acc p => jadd acc (jlog p)) (some 0))
      (some (floored.length : ℝ)))
    let arith := jdiv (floored.foldl jadd (some 0)) (some (floored.length : ℝ))
    some (JsOut.ret (jguard arith (jdiv geo arith)))

/-- `preEmphasis` from `signalProcessing.ts`: `result[0] = signal[0]`,
`result[i] = signal[i] - alpha * signal[i-1]` for `i ≥ 1`.  (On an empty
signal the store at index 0 is an ignored out-of-bounds typed-array write.)
All values are plain reals here: no NaN arises. -/
def preEmphasis (signal : List ℝ) (alpha : ℝ) : List ℝ :=
  (List.range signal.length).map fun i =>
    if i = 0 then signal.getD 0 0
    else signal.getD i 0 - alpha * signal.getD (i - 1) 0

namespace AudioProcessor

/-- `this.sampleRate` (16 kHz). -/
def sampleRate : ℕ := 16000

/-- `this.frameLength` (400 samples = 25 ms at 16 kHz). -/
def frameLength : ℕ := 400

/-- `this.frameStep` (160 samples = 10 ms at 16 kHz). -/
def frameStep : ℕ := 160

/-- `this.fftSize` (512). -/
def fftSize : ℕ := 512

/-- `this.numCoeffs` (20 retained cepstral coefficients). -/
def numCoeffs : ℕ := 20

/-- `this.batchSize` (32 frames per batch). -/
def batchSize : ℕ := 32

/-- One frame of the `frame` loop: `end = min(start + frameLength, L)`;
a short final slice is right-padded with zeros to `frameLength`, otherwise
the slice of `frameLength` samples starting at `start` is taken. -/
def frameAt (fl : ℕ) (sig : List ℝ) (start : ℕ) : List ℝ :=
  let e := min (start + fl) sig.length
  if e - start < fl then
    ((sig.drop start).take (e - start)) ++ List.replicate (fl - (e - start)) 0
  else (sig.drop start).take fl

/-- The `while (start < signal.shape[0])` loop of `AudioProcessor.frame`,
collecting one frame per offset `start, start + fs, ...`.  The conjunct
`0 < fs` is a termination guard only: the source never runs the loop with
`frameStep = 0` (and would not terminate if it did); all theorems assume
`0 < fs`. -/
def frameLoop (fl fs : ℕ) (sig : List ℝ) (start : ℕ) : List (List ℝ) :=
  if h : start < sig.length ∧ 0 < fs then
    frameAt fl sig start :: frameLoop fl fs sig (start + fs)
  else []
termination_by sig.length - start
decreasing_by omega

/-- `AudioProcessor.frame`, with `frameLength`/`frameStep` as parameters (the
source reads them from `this`; the spec's Framer contract passes them
explicitly).  `tf.stack` is modelled as the identity on the list of frames. -/
def frame (fl fs : ℕ) (sig : List ℝ) : List (List ℝ) := frameLoop fl fs sig 0

/-- Modelled from `tf.signal.hammingWindow` (library collaborator, not in
src): a Hamming window of the given length.  Only its length matters for the
theorems below. -/
noncomputable def hammingWindow (len : ℕ) : List ℝ :=
  (List.range len).map fun (i : ℕ) =>
    0.54 - 0.46 * Real.cos (2 * Real.pi * (i : ℝ) / ((len : ℝ) - 1))

/-- Modelled from `tf.spectral.rfft` (library collaborator, not in src):
real part of bin `k` of the real-input DFT of one row.  `rfft` is called
without an explicit fft length, so the transform length is the row length. -/
noncomputable def rfftRe (xs : List ℝ) (k : ℕ) : ℝ :=
  ((List.range xs.length).map fun j =>
    xs.getD j 0 * Real.cos (2 * Real.pi * k * j / xs.length)).sum

/-- Modelled from `tf.spectral.rfft`: imaginary part of bin `k`. -/
noncomputable def rfftIm (xs : List ℝ) (k : ℕ) : ℝ :=
  -((List.range xs.length).map fun j =>
    xs.getD j 0 * Real.sin (2 * Real.pi * k * j / xs.length)).sum

/-- Modelled from `tf.spectral.rfft`: the `xs.length / 2 + 1` complex bins of
the real-input transform of one row. -/
noncomputable def rfftRow (xs : List ℝ) : List (ℝ × ℝ) :=
  (List.range (xs.length / 2 + 1)).map fun k => (rfftRe xs k, rfftIm xs k)

/-- `fft.abs().square().div(this.fftSize)` applied to one row: squared
magnitude per bin, divided by `fftSize`. -/
noncomputable def powRow (xs : List ℝ) : List ℝ :=
  (rfftRow xs).map fun c => (c.1 * c.1 + c.2 * c.2) / (fftSize : ℝ)

/-- `powerSpectrum.add(1e-6).log()` applied to one row. -/
noncomputable def logRow (xs : List ℝ) : List ℝ := xs.map fun p => Real.log (p + 1e-6)

/-- `frames.mul(hammingWindow(this.frameLength))` applied to one row
(broadcast elementwise product). -/
noncomputable def windowRow (f : List ℝ) : List ℝ :=
  (f.zip (hammingWindow frameLength)).map fun p => p.1 * p.2

/-- The cosine basis matrix of `AudioProcessor.dct`: entry `(n, k)` is
`cos(k · 2 · (n+1) · π / (2 · numBins))`. -/
noncomputable def dctMatrix (numBins : ℕ) : List (List ℝ) :=
  (List.range numBins).map fun (n : ℕ) => (List.range numBins).map fun (k : ℕ) =>
    Real.cos ((k : ℝ) * 2 * ((n : ℝ) + 1) * (Real.pi / (2 * (numBins : ℝ))))

/-- Dot product of two rows (used to express `tf.matMul` row-wise). -/
def dot (a b : List ℝ) : ℝ := ((a.zip b).map fun p => p.1 * p.2).sum

/-- `tf.matMul x m`: entry `(f, k)` of the product is the dot product of row
`f` of `x` with column `k` of `m`. -/
def matMul (x m : List (List ℝ)) : List (List ℝ) :=
  x.map fun row => m.transpose.map fun col => dot row col

/-- `AudioProcessor.dct`: multiply by the cosine basis whose size `numBins`
is the row width `x.shape[1]` (modelled as the width of the first row;
tensors have uniform rows). -/
noncomputable def dct (x : List (List ℝ)) : List (List ℝ) :=
  matMul x (dctMatrix (x.headD []).length)

/-- `AudioProcessor.computeLFCC` on one batch: window each frame, take its
power spectrum and log, apply the DCT, and keep the first `numCoeffs`
coefficients of each row.  (`reshape [B, -1]` is the identity here.) -/
noncomputable def computeLFCC (frames : List (List ℝ)) : List (List ℝ) :=
  (dct (frames.map fun f => logRow (powRow (windowRow f)))).map (List.take numCoeffs)

/-- The per-frame coefficient row: what `computeLFCC` computes for every
frame of a batch of width-`frameLength` frames. -/
noncomputable def lfccRow (f : List ℝ) : List ℝ :=
  ((dctMatrix (frameLength / 2 + 1)).transpose.map fun col =>
    dot (logRow (powRow (windowRow f))) col).take numCoeffs

/-- The batching loop of `extractFeatures`: successive slices of `b` frames
(the final slice may be shorter).  The `b = 0` branch is unreachable in the
source (`batchSize` is 32) and exists only for termination. -/
def chunksOf {α : Type*} (b : ℕ) (xs : List α) : List (List α) :=
  match xs with
  | [] => []
  | x :: rest =>
    if b = 0 then [] else (x :: rest).take b :: chunksOf b ((x :: rest).drop b)
termination_by xs.length
decreasing_by simp [List.length_drop]; omega

/-- The batch loop of `extractFeatures` followed by `tf.concat(..., 0)`:
map `computeLFCC` over the batches and concatenate the results in order. -/
noncomputable def lfccBatched (b : ℕ) (frames : List (List ℝ)) : List (List ℝ) :=
  ((chunksOf b frames).map computeLFCC).flatten

/-- `AudioProcessor.extractFeatures`: frame the waveform, process batches of
`batchSize` frames through `computeLFCC`, and concatenate the coefficient
rows in the original frame order. -/
noncomputable def extractFeatures (audio : List ℝ) : List (List ℝ) :=
  lfccBatched batchSize (frame frameLength frameStep audio)

end AudioProcessor

/-! ## Basic lemmas about the JS value model -/

@[simp] theorem jadd_none_right (x : JV) : jadd x none = none := by cases x <;> rfl
@[simp] theorem jadd_none_left (x : JV) : jadd none x = none := rfl
@[simp] theorem jsub_none_right (x : JV) : jsub x none = none := by cases x <;> rfl
@[simp] theorem jsub_none_left (x : JV) : jsub none x = none := rfl
@[simp] theorem jmul_none_right (x : JV) : jmul x none = none := by cases x <;> rfl
@[simp] theorem jmul_none_left (x : JV) : jmul none x = none := rfl
@[simp] theorem jdiv_none_right (x : JV) : jdiv x none = none := by cases x <;> rfl
@[simp] theorem jdiv_none_left (x : JV) : jdiv none x = none := rfl
@[simp] theorem jmax_none_right (x : JV) : jmax x none = none := by cases x <;> rfl
@[simp] theorem jmax_none_left (x : JV) : jmax none x = none := rfl
@[simp] theorem jlog_none : jlog none = none := rfl
@[simp] theorem jexp_none : jexp none = none := rfl
@[simp] theorem jguard_none (v : JV) : jguard none v = some 0 := rfl

theorem fget_of_forall_none {r : List JV} (h : ∀ v ∈ r, v = none) (i : ℕ) :
    fget r i = none := by
  unfold fget
  cases hg : r.get? i with
  | none => rfl
  | some v => exact h v (List.get?_mem hg)

theorem foldl_jadd_acc_none : ∀ l : List JV, l.foldl jadd none = none := by
  intro l
  induction l with
  | nil => rfl
  | cons x xs ih => simpa using ih

theorem foldl_jadd_all_none {l : List JV} (hne : l ≠ [])
    (h : ∀ v ∈ l, v = none) (a : JV) : l.foldl jadd a = none := by
  cases l with
  | nil => exact absurd rfl hne
  | cons x xs =>
    have hx : x = none := h x (List.mem_cons_self x xs)
    simp only [List.foldl_cons, hx, jadd_none_right]
    exact foldl_jadd_acc_none xs

theorem foldl_jaddlog_acc_none : ∀ l : List JV,
    l.foldl (fun acc p => jadd acc (jlog p)) none = none := by
  intro l
  induction l with
  | nil => rfl
  | cons x xs ih => simpa using ih

theorem foldl_jaddlog_all_none {l : List JV} (hne : l ≠ [])
    (h : ∀ v ∈ l, v = none) (a : JV) :
    l.foldl (fun acc p => jadd acc (jlog p)) a = none := by
  cases l with
  | nil => exact absurd rfl hne
  | cons x xs =>
    have hx : x = none := h x (List.mem_cons_self x xs)
    simp only [List.foldl_cons, hx, jlog_none, jadd_none_right]
    exact foldl_jaddlog_acc_none xs

/-! ## The `FFT` base-case defect and its propagation -/

theorem pow2_land_pred (m : ℕ) : 2 ^ m &&& (2 ^ m - 1) = 0 := by
  apply Nat.eq_of_testBit_eq
  intro i
  simp [Nat.testBit_land, Nat.testBit_two_pow_sub_one, Nat.testBit_two_pow]

theorem combRe_none {n k : ℕ} {odF : List JV} (h : fget odF (2 * k + 1) = none) :
    combRe n odF k = none := by simp [combRe, h]

theorem combIm_none {n k : ℕ} {odF : List JV} (h : fget odF (2 * k + 1) = none) :
    combIm n odF k = none := by simp [combIm, h]

theorem fftCombine_length (n : ℕ) (evF odF : List JV) :
    (fftCombine n evF odF).length = 4 * (n / 2) := by
  simp [fftCombine, List.length_flatten, Function.comp_def, List.map_const']
  omega

theorem fftCombine_all_none {n : ℕ} {evF odF : List JV}
    (h : ∀ k, fget odF (2 * k + 1) = none) :
    ∀ v ∈ fftCombine n evF odF, v = none := by
  intro v hv
  simp only [fftCombine, List.mem_append, List.mem_flatten, List.mem_map] at hv
  rcases hv with (⟨l, ⟨k, -, rfl⟩, hvl⟩ | ⟨l, ⟨k, -, rfl⟩, hvl⟩) <;>
    simp [combRe_none (h k), combIm_none (h k)] at hvl <;>
    tauto

theorem fget_singleton_odd (b : JV) (k : ℕ) : fget [b] (2 * k + 1) = none := by
  have h : [b].length ≤ 2 * k + 1 := by simp
  simp [fget, List.get?_eq_none.mpr h]

theorem FFT_two (a b : JV) : FFT 2 [a, b] = some (JsOut.ret (fftCombine 2 [a] [b])) := by
  simp [FFT, fget, List.range_succ]

/-- For every input of length `2^j` with `j ≥ 1` (that is, every reachable
recursive case), `FFT` returns a buffer of `2^(j+1)` floats that are all NaN:
the length-1 base case returns a 1-float buffer, so the first combine level
reads the missing imaginary slot out of bounds and poisons everything. -/
theorem FFT_all_none : ∀ j : ℕ, 1 ≤ j → ∀ s : List JV, s.length = 2 ^ j →
    ∃ r, FFT (j + 1) s = some (JsOut.ret r) ∧ r.length = 2 ^ (j + 1) ∧
      ∀ v ∈ r, v = none := by
  intro j
  induction j with
  | zero => omega
  | succ i ih =>
    intro _ s hs
    by_cases hi : i = 0
    · subst hi
      obtain ⟨a, b, rfl⟩ := List.length_eq_two.mp hs
      refine ⟨fftCombine 2 [a] [b], FFT_two a b, ?_, ?_⟩
      · rw [fftCombine_length]; decide
      · exact fftCombine_all_none (fget_singleton_odd b)
    · have hi1 : 1 ≤ i := by omega
      have hguard : s.length &&& (s.length - 1) = 0 := by rw [hs]; exact pow2_land_pred _
      have hne1 : s.length ≠ 1 := by
        rw [hs, pow_succ]
        have := Nat.two_pow_pos i
        omega
      have hhalf : s.length / 2 = 2 ^ i := by rw [hs, pow_succ]; omega
      have hev : ((List.range (s.length / 2)).map fun idx => fget s (2 * idx)).length
          = 2 ^ i := by simp [hhalf]
      have hod : ((List.range (s.length / 2)).map fun idx => fget s (2 * idx + 1)).length
          = 2 ^ i := by simp [hhalf]
      obtain ⟨evF, hevF, hevLen, hevNone⟩ := ih hi1 _ hev
      obtain ⟨odF, hodF, hodLen, hodNone⟩ := ih hi1 _ hod
      refine ⟨fftCombine s.length evF odF, ?_, ?_, ?_⟩
      · show FFT (i + 1 + 1) s = _
        rw [FFT]
        simp only [hguard, hne1, ne_eq, not_true_eq_false, not_false_eq_true, if_false,
          if_true, ite_false, ite_true, if_neg, hevF, hodF]
      · rw [fftCombine_length, hs, pow_succ, pow_succ]
        omega
      · exact fftCombine_all_none fun k => fget_of_forall_none hodNone _

/-! ## Claim theorems about `FFT` and `powerSpectrum` -/

/-- C3: on the empty frame — whose length 0 is not a power of two — `FFT`
never throws the precondition error and never returns: the guard
`(n & (n-1)) !== 0` is false for `n = 0`, so the recursion descends into two
empty halves forever (for every fuel the outcome is still pending). -/
theorem FFT_empty_no_error (fuel : ℕ) : FFT fuel ([] : List JV) = none := by
  induction fuel with
  | zero => rfl
  | succ n ih => simp [FFT, ih]

/-- C10: on every input of power-of-two length `2^k` the recursion
terminates: fuel `k + 1` (one unit per halving level) already suffices for
`FFT` to return normally. -/
theorem FFT_pow2_terminates (k : ℕ) (s : List JV) (h : s.length = 2 ^ k) :
    ∃ out, FFT (k + 1) s = some (JsOut.ret out) := by
  cases k with
  | zero =>
    obtain ⟨a, rfl⟩ := List.length_eq_one.mp h
    exact ⟨[a], by simp [FFT]⟩
  | succ j =>
    obtain ⟨r, hr, -, -⟩ := FFT_all_none (j + 1) (by omega) s h
    exact ⟨r, hr⟩

/-- Witness for C10: the concrete length-`2^0` input `[0]` terminates. -/
theorem FFT_pow2_terminates_witness :
    ([some (0 : ℝ)] : List JV).length = 2 ^ 0 ∧
      ∃ out, FFT (0 + 1) [some (0 : ℝ)] = some (JsOut.ret out) :=
  ⟨rfl, FFT_pow2_terminates 0 [some (0 : ℝ)] rfl⟩

/-- C2: at `N = 1` the transform returns the 1-float copy of its input — a
single float, not the `2·N = 2` interleaved floats the combine step (and the
claim) expect; this is the base-case defect. -/
theorem FFT_base_case_one_float :
    FFT 1 [some (0 : ℝ)] = some (JsOut.ret [some (0 : ℝ)]) ∧
      ([some (0 : ℝ)] : List JV).length = 1 :=
  ⟨rfl, rfl⟩

/-- C1: the round trip at the power-of-two input `[1, 0]` (N = 2): the first
transform already returns all-NaN (the base case's missing imaginary slot is
read out of bounds), the second transform of that buffer is all-NaN, and the
recovered samples `result[2i] / N` are NaN — not approximately the input. -/
theorem FFT_roundtrip_nan :
    FFT 3 [some (1 : ℝ), some 0] = some (JsOut.ret [none, none, none, none]) ∧
    FFT 3 [none, none, none, none] = some (JsOut.ret (List.replicate 8 (none : JV))) ∧
    jdiv (fget (List.replicate 8 (none : JV)) 0) (some (2 : ℝ)) = none ∧
    (none : JV) ≠ some (1 : ℝ) :=
  ⟨rfl, rfl, rfl, fun h => Option.noConfusion h⟩

/-- C4: `powerSpectrum` at the power-of-two input `[1, 0]` returns NaN in
both bins — not the non-negative squared magnitudes of the claim — because
the transform's output is already all-NaN. -/
theorem powerSpectrum_nan :
    powerSpectrum 2 [some (1 : ℝ), some 0] = some (JsOut.ret [none, none]) ∧
      ¬ ∃ x : ℝ, fget [(none : JV), none] 0 = some x := by
  refine ⟨rfl, ?_⟩
  rintro ⟨x, hx⟩
  exact Option.noConfusion hx

theorem powerBins_all_none {n : ℕ} {fft : List JV} (h : ∀ v ∈ fft, v = none) :
    ∀ v ∈ powerBins n fft, v = none := by
  intro v hv
  simp only [powerBins, List.mem_map, List.mem_range] at hv
  obtain ⟨i, -, rfl⟩ := hv
  split_ifs <;> simp [fget_of_forall_none h]

theorem powerSpectrum_silent (k : ℕ) :
    ∃ bins, powerSpectrum (k + 1) (List.replicate (2 ^ k) (some 0)) = some (JsOut.ret bins) ∧
      bins ≠ [] ∧ ∀ v ∈ bins, v = none := by
  cases k with
  | zero =>
    refine ⟨[none], rfl, by simp, by simp⟩
  | succ j =>
    obtain ⟨r, hr, -, hrNone⟩ :=
      FFT_all_none (j + 1) (by omega) (List.replicate (2 ^ (j + 1)) (some 0)) (by simp)
    refine ⟨powerBins (2 ^ (j + 1)) r, ?_, ?_, powerBins_all_none hrNone⟩
    · simp only [powerSpectrum, hr, List.length_replicate]
    · have : (powerBins (2 ^ (j + 1)) r).length = 2 ^ (j + 1) / 2 + 1 := by
        simp [powerBins]
      intro hcon
      rw [hcon] at this
      simp at this

/-- C8: on a silent (all-zero) frame of any power-of-two length `2^k`,
`spectralCentroid` returns the defined numeric result 0 and
`spectralFlatness` returns 0, and neither raises: every power bin is NaN,
the `> 0` guards are false for NaN (as in JS), and the guarded result is 0. -/
theorem silent_centroid_flatness_zero (k : ℕ) (sr : ℝ) :
    spectralCentroid (k + 1) (List.replicate (2 ^ k) (some 0)) sr
        = some (JsOut.ret (some 0)) ∧
      spectralFlatness (k + 1) (List.replicate (2 ^ k) (some 0))
        = some (JsOut.ret (some 0)) := by
  obtain ⟨bins, hps, hne, hnone⟩ := powerSpectrum_silent k
  have htp : bins.foldl jadd (some 0) = none := foldl_jadd_all_none hne hnone _
  have hfne : bins.map (fun p => jmax p (some 1e-10)) ≠ [] := by
    simpa using hne
  have hfnone : ∀ v ∈ bins.map (fun p => jmax p (some 1e-10)), v = none := by
    intro v hv
    simp only [List.mem_map] at hv
    obtain ⟨p, hp, rfl⟩ := hv
    rw [hnone p hp]
    simp
  constructor
  · simp only [spectralCentroid, hps, htp]
    simp [jguard_none]
  · simp only [spectralFlatness, hps,
      foldl_jadd_all_none hfne hfnone, foldl_jaddlog_all_none hfne hfnone]
    simp [jguard_none]

/-! ## `preEmphasis` -/

theorem getElem?_eq_some_getD (l : List ℝ) (i : ℕ) (h : i < l.length) :
    l[i]? = some (l.getD i 0) := by
  rw [List.getElem?_eq_getElem h, List.getD_eq_getElem?_getD, List.getElem?_eq_getElem h]
  rfl

/-- C9: `preEmphasis` keeps the length, maps index 0 to `x[0]`, maps every
later index to `x[i] - alpha * x[i-1]` (stated totally via `getElem?`, so no
precondition is needed), and on a constant signal `[c, c, ...]` yields
`[c, c·(1-alpha), c·(1-alpha), ...]`. -/
theorem preEmphasis_spec (x : List ℝ) (a : ℝ) :
    (preEmphasis x a).length = x.length ∧
    (∀ i : ℕ, (preEmphasis x a)[i]? =
      if i = 0 then x[0]?
      else (x[i]?).bind fun xi => (x[i-1]?).map fun xp => xi - a * xp) ∧
    (∀ (c : ℝ) (n : ℕ),
      preEmphasis (List.replicate (n + 1) c) a = c :: List.replicate n (c * (1 - a))) := by
  refine ⟨by simp [preEmphasis], ?_, ?_⟩
  · intro i
    rcases Nat.lt_or_ge i x.length with hi | hi
    · have hL : (preEmphasis x a)[i]? =
          some (if i = 0 then x.getD 0 0 else x.getD i 0 - a * x.getD (i - 1) 0) := by
        unfold preEmphasis
        rw [List.getElem?_map]
        simp [List.getElem?_range, hi]
      by_cases h0 : i = 0
      · subst h0
        rw [hL, getElem?_eq_some_getD x 0 hi]
        simp
      · rw [hL, getElem?_eq_some_getD x i hi, getElem?_eq_some_getD x (i - 1) (by omega)]
        simp [h0]
    · have hL : (preEmphasis x a)[i]? = none := by
        apply List.getElem?_eq_none
        simpa [preEmphasis] using hi
      rw [hL]
      by_cases h0 : i = 0
      · subst h0
        rw [if_pos rfl, List.getElem?_eq_none (by omega)]
      · rw [if_neg h0, List.getElem?_eq_none (by omega : x.length ≤ i)]
        rfl
  · intro c n
    have hgd : ∀ j, j < n + 1 → (List.replicate (n + 1) c).getD j 0 = c := by
      intro j hj
      rw [List.getD_eq_getElem?_getD, List.getElem?_replicate, if_pos hj]
      rfl
    have hmc : ∀ i ∈ List.range (n + 1),
        (if i = 0 then (List.replicate (n + 1) c).getD 0 0
         else (List.replicate (n + 1) c).getD i 0 - a * (List.replicate (n + 1) c).getD (i - 1) 0)
        = if i = 0 then c else c * (1 - a) := by
      intro i hi
      rw [List.mem_range] at hi
      by_cases h0 : i = 0
      · rw [if_pos h0, if_pos h0, hgd 0 (by omega)]
      · rw [if_neg h0, if_neg h0, hgd i hi, hgd (i - 1) (by omega)]
        ring
    unfold preEmphasis
    rw [List.length_replicate, List.map_congr_left hmc, List.range_succ_eq_map]
    simp only [List.map_cons, if_pos rfl, List.map_map]
    congr 1
    have hconst : ((fun i => if i = 0 then c else c * (1 - a)) ∘ Nat.succ)
        = fun _ : ℕ => c * (1 - a) := by
      funext j
      simp
    rw [hconst, List.map_const', List.length_range]

/-! ## The framer -/

theorem ceil_div_succ {a fs : ℕ} (hfs : 0 < fs) (ha : 1 ≤ a) :
    (a + fs - 1) / fs = (a - fs + fs - 1) / fs + 1 := by
  rcases le_or_lt a fs with h | h
  · have hL : (a + fs - 1) / fs = 1 := Nat.div_eq_of_lt_le (by omega) (by omega)
    have hR : (a - fs + fs - 1) / fs = 0 := by
      rw [show a - fs = 0 from by omega]
      exact Nat.div_eq_of_lt (by omega)
    rw [hL, hR]
  · have h1 : a - fs + fs - 1 = a - 1 := by omega
    have h2 : a + fs - 1 = (a - 1) + fs := by omega
    rw [h1, h2, Nat.add_div_right _ hfs]

/-- Both branches of `frameAt` equal "take `fl` samples from `start`, then
right-pad with zeros to `fl`". -/
theorem frameAt_eq (fl : ℕ) (sig : List ℝ) (i : ℕ) :
    AudioProcessor.frameAt fl sig i =
      (sig.drop i).take fl ++ List.replicate (fl - (sig.length - i)) 0 := by
  unfold AudioProcessor.frameAt
  by_cases h : min (i + fl) sig.length - i < fl
  · rw [if_pos h]
    have he : min (i + fl) sig.length - i = sig.length - i := by omega
    rw [he]
    congr 1
    rw [List.take_of_length_le (by simp),
      List.take_of_length_le (by simp; omega)]
  · rw [if_neg h]
    rw [show fl - (sig.length - i) = 0 from by omega, List.replicate_zero,
      List.append_nil]

theorem frameAt_length (fl : ℕ) (sig : List ℝ) (i : ℕ) :
    (AudioProcessor.frameAt fl sig i).length = fl := by
  rw [frameAt_eq]
  simp only [List.length_append, List.length_take, List.length_drop,
    List.length_replicate]
  omega

theorem frameLoop_eq {fl fs : ℕ} (hfs : 0 < fs) (sig : List ℝ) :
    ∀ start, AudioProcessor.frameLoop fl fs sig start =
      (List.range ((sig.length - start + fs - 1) / fs)).map
        (fun i => AudioProcessor.frameAt fl sig (start + i * fs)) := by
  have key : ∀ m start, sig.length - start ≤ m →
      AudioProcessor.frameLoop fl fs sig start =
        (List.range ((sig.length - start + fs - 1) / fs)).map
          (fun i => AudioProcessor.frameAt fl sig (start + i * fs)) := by
    intro m
    induction m with
    | zero =>
      intro start h0
      rw [AudioProcessor.frameLoop, dif_neg (by omega)]
      rw [show sig.length - start = 0 from by omega,
        Nat.div_eq_of_lt (by omega : 0 + fs - 1 < fs)]
      rfl
    | succ m ih =>
      intro start hle
      by_cases hs : start < sig.length
      · have hrec := ih (start + fs) (by omega)
        rw [AudioProcessor.frameLoop, dif_pos ⟨hs, hfs⟩, hrec]
        have hc : (sig.length - start + fs - 1) / fs
            = (sig.length - (start + fs) + fs - 1) / fs + 1 := by
          have hcc := ceil_div_succ (a := sig.length - start) hfs (by omega)
          rw [show sig.length - start - fs = sig.length - (start + fs) from by omega] at hcc
          exact hcc
        rw [hc, List.range_succ_eq_map, List.map_cons, List.map_map]
        congr 1
        · simp
        · apply List.map_congr_left
          intro j _
          simp only [Function.comp_apply]
          congr 1
          rw [Nat.succ_mul]
          omega
      · rw [AudioProcessor.frameLoop, dif_neg (by tauto)]
        rw [show sig.length - start = 0 from by omega,
          Nat.div_eq_of_lt (by omega : 0 + fs - 1 < fs)]
        rfl
  intro start
  exact key (sig.length - start) start le_rfl

/-- C5: given `frameStep > 0`, the framer emits one frame per offset
`0, fs, 2·fs, ...` below the signal length — `⌈L / fs⌉ = (L + fs - 1) / fs`
frames in total — where frame `i` is the `fl`-sample window at offset `i·fs`,
right-padded with zeros when fewer than `fl` samples remain; every frame has
exactly `fl` samples, so none is dropped or truncated. -/
theorem frame_spec (fl fs : ℕ) (sig : List ℝ) (hfs : 0 < fs) :
    AudioProcessor.frame fl fs sig =
      (List.range ((sig.length + fs - 1) / fs)).map
        (fun i => (sig.drop (i * fs)).take fl ++
          List.replicate (fl - (sig.length - i * fs)) 0) ∧
    (AudioProcessor.frame fl fs sig).length = (sig.length + fs - 1) / fs ∧
    ∀ f ∈ AudioProcessor.frame fl fs sig, f.length = fl := by
  have h1 : AudioProcessor.frame fl fs sig =
      (List.range ((sig.length + fs - 1) / fs)).map
        (fun i => AudioProcessor.frameAt fl sig (i * fs)) := by
    unfold AudioProcessor.frame
    rw [frameLoop_eq hfs sig 0]
    simp
  refine ⟨?_, ?_, ?_⟩
  · rw [h1]
    apply List.map_congr_left
    intro i _
    exact frameAt_eq fl sig (i * fs)
  · rw [h1]
    simp
  · intro f hf
    rw [h1] at hf
    simp only [List.mem_map] at hf
    obtain ⟨i, -, rfl⟩ := hf
    exact frameAt_length fl sig (i * fs)

/-- Witness for C5 at `fl = 2`, `fs = 1`, signal `[1, 2, 3]`. -/
theorem frame_spec_witness :
    (0 : ℕ) < 1 ∧
    (AudioProcessor.frame 2 1 [(1 : ℝ), 2, 3] =
      (List.range ((([(1 : ℝ), 2, 3] : List ℝ).length + 1 - 1) / 1)).map
        (fun i => (([(1 : ℝ), 2, 3] : List ℝ).drop (i * 1)).take 2 ++
          List.replicate (2 - (([(1 : ℝ), 2, 3] : List ℝ).length - i * 1)) 0) ∧
    (AudioProcessor.frame 2 1 [(1 : ℝ), 2, 3]).length =
      (([(1 : ℝ), 2, 3] : List ℝ).length + 1 - 1) / 1 ∧
    ∀ f ∈ AudioProcessor.frame 2 1 [(1 : ℝ), 2, 3], f.length = 2) :=
  ⟨by decide, frame_spec 2 1 [(1 : ℝ), 2, 3] (by decide)⟩

/-! ## The cepstral pipeline: row widths and batch invariance -/

namespace AudioProcessor

theorem hammingWindow_length (len : ℕ) : (hammingWindow len).length = len := by
  unfold hammingWindow
  rw [List.length_map, List.length_range]

theorem windowRow_length {f : List ℝ} (hf : f.length = frameLength) :
    (windowRow f).length = frameLength := by
  simp [windowRow, hammingWindow_length, hf]

theorem powRow_length (xs : List ℝ) : (powRow xs).length = xs.length / 2 + 1 := by
  simp [powRow, rfftRow]

theorem logRow_length (xs : List ℝ) : (logRow xs).length = xs.length := by
  simp [logRow]

theorem map_rows_eq (rest : List (List ℝ)) :
    List.map (List.take numCoeffs)
      (List.map (fun row => List.map (fun col => dot row col)
          (dctMatrix (frameLength / 2 + 1)).transpose)
        (List.map (fun f => logRow (powRow (windowRow f))) rest))
    = rest.map lfccRow := by
  induction rest with
  | nil => simp only [List.map_nil]
  | cons r rs ih =>
    simp only [List.map_cons, ih]
    exact List.cons_eq_cons.mpr ⟨rfl, rfl⟩

/-- On a batch whose frames all have the native width 400, `computeLFCC` is
exactly the per-frame map of `lfccRow`: every step (windowing, power
spectrum, log, the row-wise matrix product, the final `take`) acts on each
row independently, and the DCT size `x.shape[1]` is the same 201 for every
batch. -/
theorem computeLFCC_eq_map {frames : List (List ℝ)}
    (h : ∀ f ∈ frames, f.length = frameLength) :
    computeLFCC frames = frames.map lfccRow := by
  cases frames with
  | nil => simp [computeLFCC, dct, matMul]
  | cons f0 rest =>
    have hw : (logRow (powRow (windowRow f0))).length = frameLength / 2 + 1 := by
      rw [logRow_length, powRow_length, windowRow_length (h f0 (by simp))]
    unfold computeLFCC dct matMul
    simp only [List.map_cons, List.headD_cons, hw]
    refine List.cons_eq_cons.mpr ⟨rfl, ?_⟩
    exact map_rows_eq rest

theorem chunksOf_flatten {α : Type*} {b : ℕ} (hb : 0 < b) (xs : List α) :
    (chunksOf b xs).flatten = xs := by
  have key : ∀ (m : ℕ) (ys : List α), ys.length ≤ m → (chunksOf b ys).flatten = ys := by
    intro m
    induction m with
    | zero =>
      intro ys hy
      have hnil : ys = [] := List.eq_nil_of_length_eq_zero (by omega)
      subst hnil
      simp [chunksOf]
    | succ m ih =>
      intro ys hy
      cases ys with
      | nil => simp [chunksOf]
      | cons y rest =>
        have hlen : ((y :: rest).drop b).length ≤ m := by
          simp only [List.length_drop, List.length_cons]
          simp only [List.length_cons] at hy
          omega
        rw [chunksOf, if_neg (by omega), List.flatten_cons, ih _ hlen]
        exact List.take_append_drop b (y :: rest)
  exact key xs.length xs le_rfl

theorem mem_of_mem_chunksOf {α : Type*} {b : ℕ} {xs : List α} {c : List α}
    (hb : 0 < b) (hc : c ∈ chunksOf b xs) : ∀ a ∈ c, a ∈ xs := by
  intro a ha
  have hmem : a ∈ (chunksOf b xs).flatten := List.mem_flatten.mpr ⟨c, hc, ha⟩
  rwa [chunksOf_flatten hb] at hmem

/-- C6: for any positive batch size `b` — in particular 1 and 32 — running
width-400 frames through the batching loop and `computeLFCC` and
concatenating yields exactly the per-frame coefficient rows in the original
frame order; the coefficients of a frame do not depend on which batch it was
placed in. -/
theorem lfccBatched_eq_map (frames : List (List ℝ)) (b : ℕ)
    (hw : ∀ f ∈ frames, f.length = frameLength) (hb : 0 < b) :
    lfccBatched b frames = frames.map lfccRow := by
  unfold lfccBatched
  have hmap : (chunksOf b frames).map computeLFCC
      = (chunksOf b frames).map (List.map lfccRow) := by
    apply List.map_congr_left
    intro c hc
    exact computeLFCC_eq_map fun f hf => hw f (mem_of_mem_chunksOf hb hc f hf)
  rw [hmap, ← List.map_flatten, chunksOf_flatten hb]

theorem length_replicate_400 : (List.replicate 400 (0 : ℝ)).length = frameLength := by
  rw [List.length_replicate]
  rfl

theorem mem_singleton_length_400 :
    ∀ f ∈ [List.replicate 400 (0 : ℝ)], f.length = frameLength := by
  intro f hf
  rw [List.mem_singleton] at hf
  subst hf
  exact length_replicate_400

/-- Witness for C6: one concrete 400-sample frame, batch size 32. -/
theorem lfccBatched_eq_map_witness :
    (∀ f ∈ [List.replicate 400 (0 : ℝ)], f.length = frameLength) ∧ (0 : ℕ) < 32 ∧
      lfccBatched 32 [List.replicate 400 (0 : ℝ)]
        = [List.replicate 400 (0 : ℝ)].map lfccRow :=
  ⟨mem_singleton_length_400, by decide,
    lfccBatched_eq_map [List.replicate 400 (0 : ℝ)] 32 mem_singleton_length_400 (by decide)⟩

/-- C7 counterexample: for a concrete 400-sample frame, the power-spectrum
row computed inside `computeLFCC` has `400/2 + 1 = 201` bins, not
`fftSize/2 + 1 = 257`: the frame is not zero-padded to `fftSize = 512`
before the transform (`rfft` is called without an fft length). -/
theorem lfcc_bins_201_not_257 :
    (powRow (windowRow (List.replicate 400 (0 : ℝ)))).length = 201 ∧
      fftSize / 2 + 1 = 257 ∧ (201 : ℕ) ≠ 257 := by
  refine ⟨?_, by decide, by decide⟩
  rw [powRow_length, windowRow_length length_replicate_400]
  decide

/-- C7 amended: every 400-sample frame is transformed at its native length
400 (no zero-padding to `fftSize` occurs), so the per-frame power spectrum
handed to the log and cosine-projection steps has `400/2 + 1 = 201` bins;
`fftSize` enters only as the normalization divisor of the power spectrum. -/
theorem lfcc_power_bins (f : List ℝ) (hf : f.length = frameLength) :
    (powRow (windowRow f)).length = frameLength / 2 + 1 := by
  rw [powRow_length, windowRow_length hf]

/-- Witness for the amended C7 at a concrete 400-sample frame. -/
theorem lfcc_power_bins_witness :
    (List.replicate 400 (0 : ℝ)).length = frameLength ∧
      (powRow (windowRow (List.replicate 400 (0 : ℝ)))).length = frameLength / 2 + 1 :=
  ⟨length_replicate_400, lfcc_power_bins _ length_replicate_400⟩

end AudioProcessor
